import Mathlib

/-!
Verification of the event-sourced points-ledger service
(`TransactionService` with `transactionStore` / `transactionSnapshotBalance`,
its `add`, `spendPoints`, `showPayerPoints`, `buildProjectionFromIndex` and
`findIndexFromTimestamp` operations, and the `routes` validation layer).

Modelling conventions:
* JS `number` values that the program stores (transaction `points`, the
  millisecond value `Date.getTime()` of a transaction `timestamp`) are
  modelled as `Int`.
* The one place where the non-finite JS values matter — the `spendPoints`
  amount guard `isNaN(pointsToSpend) || pointsToSpend < 0` — is modelled by
  the four-way split `JSNum` (finite / +Infinity / -Infinity / NaN).
* A JS object `Record<string, number>` is modelled as an association list in
  key-insertion order (JS objects preserve string-key insertion order, and
  `Object.entries` enumerates in that order).
* `Array.prototype.sort` on Node ≥ 11 (the repo requires Node ≥ 16) is a
  stable sort; it is modelled by a stable insertion sort on the timestamp key.
-/

/-- A ledger transaction (`transaction.model.ts`): `payer`, `points`, and the
event `timestamp` (modelled by its `getTime()` millisecond value). -/
structure Transaction where
  payer : String
  points : Int
  timestamp : Int
deriving DecidableEq, Repr

/-- A JS `Record<string, number>` in key-insertion order. -/
abbrev Projection := List (String × Int)

/-- Reading `m[p]` from a JS record: the value at the first (only) occurrence
of the key, `none` when the key is absent (JS `undefined`). -/
def lookupProj : Projection → String → Option Int
  | [], _ => none
  | (q, v) :: rest, p => if q = p then some v else lookupProj rest p

/-- Writing `m[p] = v` to a JS record: overwrite in place if the key exists,
otherwise append the new key (JS insertion-order semantics). -/
def setProj : Projection → String → Int → Projection
  | [], p, v => [(p, v)]
  | (q, w) :: rest, p, v =>
    if q = p then (q, v) :: rest else (q, w) :: setProj rest p v

/-- The body of `buildProjectionFromIndex`'s `for` loop: for each transaction,
initialise the payer's entry to 0 if absent, then `+=` its points. -/
def projectOver (ts : List Transaction) : Projection :=
  ts.foldl (fun m t => setProj m t.payer ((lookupProj m t.payer).getD 0 + t.points)) []

/-- The net points of payer `p` in the list `l`:
`sum(t.points for t in l if t.payer == p)`. -/
def sumFor (l : List Transaction) (p : String) : Int :=
  ((l.filter (fun t => t.payer = p)).map (fun t => t.points)).sum

/-- The sum of all points in the list (all payers together). -/
def totalPoints (l : List Transaction) : Int :=
  (l.map (fun t => t.points)).sum

/-- The sum of the positive values of a record; applied to a full-ledger
projection it is the "spendable total across all payers". -/
def posTotal (m : Projection) : Int :=
  (m.map (fun pv => max pv.2 0)).sum

/-- The sum of all values of a record. -/
def sumValues (m : Projection) : Int :=
  (m.map (fun pv => pv.2)).sum

/-- The spendable total of the ledger `l` over a fixed payer enumeration
`ps`: the sum over `ps` of the positive part of each payer's net points. -/
def SPos (l : List Transaction) (ps : List String) : Int :=
  (ps.map (fun p => max (sumFor l p) 0)).sum

/-- Insert a transaction into a timestamp-sorted list, after any entry with an
equal or smaller timestamp (the stable position). -/
def insertSorted (t : Transaction) : List Transaction → List Transaction
  | [] => [t]
  | x :: xs => if t.timestamp < x.timestamp then t :: x :: xs else x :: insertSorted t xs

/-- Model of `array.sort(sortByTimeFn)` where
`sortByTimeFn(a, b) = a.timestamp.getTime() - b.timestamp.getTime()`:
a stable sort ascending by timestamp, modelled as stable insertion sort. -/
def sortByTime (l : List Transaction) : List Transaction :=
  l.foldl (fun acc t => insertSorted t acc) []

/-- The service state: the in-memory store of all recorded transactions and
the cached projection `transactionSnapshotBalance`. A fresh service has
`transactionStore = []` and `transactionSnapshotBalance = {}`. -/
structure TransactionService where
  transactionStore : List Transaction
  transactionSnapshotBalance : Projection
deriving DecidableEq, Repr

/-- A fresh service, `new TransactionService()`. -/
def initialService : TransactionService := ⟨[], []⟩

/-- Model of `buildProjectionFromIndex(index)`: clamp the index below 0 to 0
(`Math.max(index, 0)`), slice the store from there and accumulate the
per-payer sums. -/
def TransactionService.buildProjectionFromIndex
    (s : TransactionService) (index : Int) : Projection :=
  let startIdx := max index 0
  projectOver (s.transactionStore.drop startIdx.toNat)

/-- Model of `add(...transactions)`: push the batch, re-sort the whole store by
timestamp, then rebuild and cache the full projection
(`this.transactionSnapshotBalance = this.buildProjection()`, which is
`buildProjectionFromIndex()` with default index 0). -/
def TransactionService.add
    (s : TransactionService) (transactions : List Transaction) : TransactionService :=
  let store := sortByTime (s.transactionStore ++ transactions)
  { transactionStore := store
    transactionSnapshotBalance :=
      TransactionService.buildProjectionFromIndex ⟨store, s.transactionSnapshotBalance⟩ 0 }

/-- Model of `showPayerPoints()`: return the cached projection. -/
def TransactionService.showPayerPoints (s : TransactionService) : Projection :=
  s.transactionSnapshotBalance

/-- A JS `number` argument as far as the `spendPoints` guard can distinguish
it: finite, `+Infinity`, `-Infinity`, or `NaN`. -/
inductive JSNum where
  | fin (x : Int)
  | posInf
  | negInf
  | nan
deriving DecidableEq, Repr

/-- JS `isNaN(x)` on a number. -/
def JSNum.isNaN : JSNum → Bool
  | .nan => true
  | _ => false

/-- JS `x < 0` on a number (`NaN < 0` is false, `-Infinity < 0` is true). -/
def JSNum.lt0 : JSNum → Bool
  | .fin x => x < 0
  | .negInf => true
  | _ => false

/-- The running `pointsLeft` of the spend loop. Past the guard the amount is
a finite number `≥ 0` or `+Infinity`, and subtracting the finite `take` of an
iteration keeps it in this set. -/
inductive Budget where
  | fin (x : Int)
  | posInf
deriving DecidableEq, Repr

/-- JS `pointsLeft > 0`. -/
def Budget.gt0 : Budget → Bool
  | .fin x => 0 < x
  | .posInf => true

/-- JS `Math.min(points, pointsLeft)` for a finite `points`: the result is
always finite. -/
def Budget.minPoints : Budget → Int → Int
  | .fin x, points => min points x
  | .posInf, points => points

/-- JS `pointsLeft - take` for a finite `take`. -/
def Budget.sub : Budget → Int → Budget
  | .fin x, t => .fin (x - t)
  | .posInf, _ => .posInf

/-- Conversion of a guard-passing amount to the loop budget. The `negInf` and
`nan` cases are never reached: the guard rejects them (`-Infinity < 0` and
`isNaN(NaN)`). -/
def JSNum.toBudget : JSNum → Budget
  | .fin x => .fin x
  | .posInf => .posInf
  | .negInf => .fin 0
  | .nan => .fin 0

/-- The error thrown by `spendPoints`
("Points to spend must be a valid positive number"). -/
inductive SpendError where
  | invalidAmount
deriving DecidableEq, Repr

/-- The `while (pointsLeft > 0)` loop of `spendPoints`. `total` is the
`totalNumberOfTransactions` captured before the loop; `debits` counts the
synthetic debit transactions issued so far, and `clock k` is the
`new Date().getTime()` observed when issuing the `k`-th debit. The `fuel`
argument makes the recursion structural; callers pass
`fuel = total - transactionIndex`, so `fuel = 0` exactly when
`transactionIndex >= total` (the loop's `break`), and the out-of-fuel and
out-of-bounds fallbacks below are never reached from `spendPoints`. -/
def spendLoop (clock : Nat → Int) (total : Nat) :
    Nat → TransactionService → Budget → Nat → Nat → TransactionService
  | 0, s, _, _, _ => s
  | fuel + 1, s, pointsLeft, transactionIndex, debits =>
    if pointsLeft.gt0 then
      if total ≤ transactionIndex then s
      else
        match s.transactionStore[transactionIndex]? with
        | none => s
        | some tr =>
          -- `this.transactionSnapshotBalance[payer]`; the payer of a stored
          -- transaction always has a snapshot entry (the snapshot is rebuilt
          -- from the full store on every `add`), so the `getD 0` default is
          -- never the value actually read in a reachable state.
          let balance := (lookupProj s.transactionSnapshotBalance tr.payer).getD 0
          -- Math.min(Math.min(points, pointsLeft), snapshotBalance[payer])
          let pointsToRemove := min (pointsLeft.minPoints tr.points) balance
          if balance ≤ 0 then
            -- skip to the next transaction
            spendLoop clock total fuel s pointsLeft (transactionIndex + 1) debits
          else
            -- append the synthetic debit { payer, points: -1 * pointsToRemove,
            -- timestamp: new Date() } and continue
            spendLoop clock total fuel
              (s.add [⟨tr.payer, -1 * pointsToRemove, clock debits⟩])
              (pointsLeft.sub pointsToRemove) (transactionIndex + 1) (debits + 1)
    else s

/-- Model of `spendPoints(pointsToSpend)`. Throws when
`isNaN(pointsToSpend) || pointsToSpend < 0`; otherwise runs the spend loop and
returns `Object.entries(buildProjectionFromIndex(totalNumberOfTransactions))`.
The model also returns the resulting service state (unchanged on a throw). -/
def TransactionService.spendPoints (clock : Nat → Int) (s : TransactionService)
    (pointsToSpend : JSNum) : Except SpendError Projection × TransactionService :=
  if pointsToSpend.isNaN || pointsToSpend.lt0 then
    (.error .invalidAmount, s)
  else
    let totalNumberOfTransactions := s.transactionStore.length
    let res := spendLoop clock totalNumberOfTransactions totalNumberOfTransactions
      s pointsToSpend.toBudget 0 0
    (.ok (res.buildProjectionFromIndex (totalNumberOfTransactions : Int)), res)

/-- The states reachable from a fresh service by any sequence of `add` and
`spendPoints` calls (with arbitrary batches, amounts and debit clocks). -/
inductive Reachable : TransactionService → Prop where
  | init : Reachable initialService
  | add (ts : List Transaction) :
      Reachable s → Reachable (s.add ts)
  | spend (clock : Nat → Int) (amt : JSNum) :
      Reachable s → Reachable (s.spendPoints clock amt).2

/-- The `while (lowBounds <= highBounds)` loop of `findIndexFromTimestamp`.
`foundIndex = Math.floor((lowBounds + highBounds) / 2)` is exactly `Int`
division by 2 (which rounds toward negative infinity). The `fuel` argument
makes the recursion structural; the width `highBounds + 1 - lowBounds` of the
search window shrinks by at least one per iteration, so fuel
`transactions.length + 1` is never exhausted, and the out-of-fuel and
out-of-bounds fallbacks (both `-1`) are never reached from
`findIndexFromTimestamp`. -/
def bsearchLoop (transactions : List Transaction) (tms : Int) :
    Nat → Int → Int → Int
  | 0, _, _ => -1
  | fuel + 1, lowBounds, highBounds =>
    if lowBounds ≤ highBounds then
      let foundIndex := (lowBounds + highBounds) / 2
      match transactions[foundIndex.toNat]? with
      | none => -1
      | some tr =>
        if tr.timestamp < tms then
          bsearchLoop transactions tms fuel (foundIndex + 1) highBounds
        else if tms < tr.timestamp then
          bsearchLoop transactions tms fuel lowBounds (foundIndex - 1)
        else foundIndex
    else -1

/-- Model of `findIndexFromTimestamp(transactions, timestamp)`: binary search for an
exact timestamp match; `-1` when no exact match exists. Starts with
`lowBounds = 0`, `highBounds = transactions.length - 1`. -/
def findIndexFromTimestamp (transactions : List Transaction) (tms : Int) : Int :=
  bsearchLoop transactions tms (transactions.length + 1) 0
    ((transactions.length : Int) - 1)

/-- A transaction's timestamps are sorted ascending. -/
def SortedByTime (l : List Transaction) : Prop :=
  l.Pairwise (fun a b => a.timestamp ≤ b.timestamp)

/-- A JS `Date` object as observed through `getTime()`: `some ms` for a valid
date, `none` for an Invalid Date (whose `getTime()` is `NaN`). `new Date(s)`
on an unparseable string yields an Invalid Date — a truthy object. -/
abbrev JSDate := Option Int

/-- The request-payload fields of one entry of a `POST /transactions` batch as
`unmarshalTransaction` sees them: each field either absent (`none`) or
present. A present timestamp field is recorded by the `JSDate` that
`new Date(field)` evaluates to. -/
structure RawTransaction where
  payer : Option String
  points : Option JSNum
  timestamp : Option JSDate
deriving DecidableEq, Repr

/-- The intermediate object built by `unmarshalTransaction` before
validation: `payer` and `points` copied through, `timestamp` either
`undefined` (field absent) or the `Date` object `new Date(field)`. -/
structure UnmarshaledTransaction where
  payer : Option String
  points : Option JSNum
  timestamp : Option JSDate
deriving DecidableEq, Repr

/-- The errors thrown by `validateTransaction` in `routes.ts`:
"Missing payer field", "Timestamp must be a valid date",
"Missing points field, must be a number". -/
inductive ValidationError where
  | missingPayer
  | invalidTimestamp
  | missingPoints
deriving DecidableEq, Repr

/-- JS falsiness of the `payer` field: `undefined` and the empty string are
falsy; every other string is truthy. -/
def payerFalsy : Option String → Bool
  | none => true
  | some s => s.isEmpty

/-- JS falsiness of the `points` field together with `isNaN(points)`:
`!points || isNaN(points)` holds for `undefined`, `0` and `NaN`. -/
def pointsInvalid : Option JSNum → Bool
  | none => true
  | some (.fin x) => x = 0
  | some .nan => true
  | some _ => false

/-- Model of `validateTransaction`: reject a falsy payer, a falsy timestamp
(`undefined` only — every `Date` object is truthy, an Invalid Date included),
and falsy-or-NaN points. -/
def validateTransaction (t : UnmarshaledTransaction) : Except ValidationError Unit :=
  if payerFalsy t.payer then .error .missingPayer
  else if t.timestamp.isNone then .error .invalidTimestamp
  else if pointsInvalid t.points then .error .missingPoints
  else .ok ()

/-- Model of `unmarshalTransaction`: build the transaction object
(`timestamp: payload.timestamp ? new Date(payload.timestamp) : undefined`),
validate it, and return it. -/
def unmarshalTransaction (payload : RawTransaction) :
    Except ValidationError UnmarshaledTransaction :=
  let transaction : UnmarshaledTransaction :=
    { payer := payload.payer
      points := payload.points
      timestamp := payload.timestamp }
  match validateTransaction transaction with
  | .error e => .error e
  | .ok _ => .ok transaction

/-- The unmarshal loop of `buildAddTransactionRoute` over an array payload:
unmarshal the entries in order, aborting at the first invalid one. -/
def unmarshalBatch : List RawTransaction → Except ValidationError (List UnmarshaledTransaction)
  | [] => .ok []
  | payload :: rest =>
    match unmarshalTransaction payload with
    | .error e => .error e
    | .ok t =>
      match unmarshalBatch rest with
      | .error e => .error e
      | .ok ts => .ok (t :: ts)

/-- The stored transaction corresponding to a validated entry whose timestamp
is a valid date and whose points are finite (the only entries the `Int`-based
store model represents; the defaults are never used for such entries). -/
def embedTransaction (t : UnmarshaledTransaction) : Transaction :=
  { payer := (t.payer).getD default
    points := match t.points with | some (.fin x) => x | _ => 0
    timestamp := (t.timestamp).getD none |>.getD 0 }

/-- Model of `buildAddTransactionRoute` on an array body: run the unmarshal loop
inside `try`; on success call `transactionService.add(...transactions)`, on a
validation error answer 400 with the service untouched (the `add` call is
only reached after the whole batch unmarshaled). -/
def addTransactionRoute (s : TransactionService) (body : List RawTransaction) :
    TransactionService × Option ValidationError :=
  match unmarshalBatch body with
  | .error e => (s, some e)
  | .ok ts => (s.add (ts.map embedTransaction), none)

/-- An entry that `validateTransaction` rejects: falsy payer, absent
timestamp field, or falsy/NaN points. -/
def badEntry (r : RawTransaction) : Bool :=
  payerFalsy r.payer || r.timestamp.isNone || pointsInvalid r.points

/-- The two internal invariants every reachable service state enjoys: the
cached `transactionSnapshotBalance` equals the projection of the full store,
and the store is sorted ascending by timestamp. -/
def ServiceInv (s : TransactionService) : Prop :=
  s.transactionSnapshotBalance = projectOver s.transactionStore ∧
    SortedByTime s.transactionStore

/-- A payer's aggregate balance: the sum of the points of that payer's
stored transactions. -/
def balanceOf (s : TransactionService) (p : String) : Int :=
  sumFor s.transactionStore p

/-- Run a sequence of `spendPoints` calls (each with its own debit clock and
amount), keeping the state across calls; a throwing call leaves the state
unchanged. -/
def spendSeq (calls : List ((Nat → Int) × JSNum)) (s : TransactionService) :
    TransactionService :=
  calls.foldl (fun s c => (s.spendPoints c.1 c.2).2) s

/-- A constant debit clock. -/
def constClock (n : Int) : Nat → Int := fun _ => n

/-- Payer name of the worked example. -/
def pDannon : String := "DANNON"

/-- Payer name of the worked example. -/
def pUnilever : String := "UNILEVER"

/-- Payer name of the worked example. -/
def pMillerCoors : String := "MILLER COORS"

/-- A payer name for concrete counterexamples. -/
def pA : String := "A"

/-- A payer name for concrete counterexamples. -/
def pB : String := "B"

/-- The five transactions of the worked example, in submission order, with
their actual epoch-millisecond timestamps (`2020-11-02T14:00Z`,
`2020-10-31T11:00Z`, `2020-10-31T15:00Z`, `2020-11-01T14:00Z`,
`2020-10-31T10:00Z`). -/
def mockTransactions : List Transaction :=
  [⟨pDannon, 1000, 1604325600000⟩,
   ⟨pUnilever, 200, 1604142000000⟩,
   ⟨pDannon, -200, 1604156400000⟩,
   ⟨pMillerCoors, 10000, 1604239200000⟩,
   ⟨pDannon, 300, 1604138400000⟩]

/-- The service after appending the worked example's batch in one call. -/
def scenarioService : TransactionService := initialService.add mockTransactions

/-- A spend-time clock later than every timestamp of the worked example. -/
def scenarioClock : Nat → Int := constClock 1604400000000

/-- Counterexample state for conservation: payer `B` credited at time 0 and
payer `A` credited at the future time 10 (relative to the spend-time clock
`constClock 5`). -/
def futureDatedService : TransactionService :=
  initialService.add [⟨pB, 5, 0⟩, ⟨pA, 3, 10⟩]

/-- Counterexample state for the spend-result claim: `A` has a negative-points
transaction followed by `B`'s credit and a later `A` credit. -/
def negativeDebitService : TransactionService :=
  initialService.add [⟨pA, -2, 0⟩, ⟨pB, 5, 1⟩, ⟨pA, 9, 2⟩]

/-- Counterexample state for the non-negative-balance claim: a single
appended transaction with negative points. -/
def negativeBalanceService : TransactionService :=
  initialService.add [⟨pA, -200, 0⟩]

/-- A batch entry whose timestamp field is present but unparseable
(`new Date` yields an Invalid Date), with a valid payer and points. -/
def unparseableTimestampEntry : RawTransaction :=
  ⟨some pA, some (.fin 5), some (none : JSDate)⟩

/-- A small sorted ledger for the binary-search witness. -/
def bsearchWitnessList : List Transaction :=
  [⟨pA, 1, 5⟩, ⟨pB, 2, 7⟩, ⟨pA, 3, 9⟩, ⟨pB, 4, 12⟩]


theorem lookupProj_nil (p : String) : lookupProj [] p = none := rfl

theorem lookupProj_cons (k : String) (w : Int) (rest : Projection) (p : String) :
    lookupProj ((k, w) :: rest) p = if k = p then some w else lookupProj rest p := rfl

theorem setProj_nil (p : String) (v : Int) : setProj [] p v = [(p, v)] := rfl

theorem setProj_cons (k : String) (w : Int) (rest : Projection) (p : String) (v : Int) :
    setProj ((k, w) :: rest) p v =
      if k = p then (k, v) :: rest else (k, w) :: setProj rest p v := rfl

theorem lookupProj_setProj (m : Projection) (p q : String) (v : Int) :
    lookupProj (setProj m p v) q = if p = q then some v else lookupProj m q := by
  induction m with
  | nil => by_cases h : p = q <;> simp [setProj_nil, lookupProj_cons, lookupProj_nil, h]
  | cons kv rest ih =>
    obtain ⟨k, w⟩ := kv
    rw [setProj_cons]
    by_cases hk : k = p
    · subst hk
      rw [if_pos rfl, lookupProj_cons, lookupProj_cons]
      by_cases h : k = q <;> simp [h]
    · rw [if_neg hk, lookupProj_cons, lookupProj_cons, ih]
      by_cases h : k = q
      · have hpq : ¬ p = q := fun hh => hk (hh.symm ▸ h)
        simp [h, hpq]
      · simp [h]

theorem keys_setProj (m : Projection) (p : String) (v : Int) :
    (setProj m p v).map Prod.fst =
      if p ∈ m.map Prod.fst then m.map Prod.fst else m.map Prod.fst ++ [p] := by
  induction m with
  | nil => simp [setProj_nil]
  | cons kv rest ih =>
    obtain ⟨k, w⟩ := kv
    rw [setProj_cons]
    by_cases hk : k = p
    · subst hk
      rw [if_pos rfl]
      simp
    · rw [if_neg hk]
      have hpk : ¬ p = k := fun h => hk h.symm
      simp only [List.map_cons, ih]
      by_cases h1 : p ∈ rest.map Prod.fst
      · simp [h1, hpk]
      · simp [h1, hpk]

theorem nodupKeys_setProj (m : Projection) (p : String) (v : Int)
    (h : (m.map Prod.fst).Nodup) : ((setProj m p v).map Prod.fst).Nodup := by
  rw [keys_setProj]
  by_cases h1 : p ∈ m.map Prod.fst
  · rwa [if_pos h1]
  · rw [if_neg h1, List.nodup_append]
    refine ⟨h, List.nodup_singleton _, ?_⟩
    intro a ha
    simp only [List.mem_singleton]
    intro hap
    exact h1 (hap ▸ ha)

theorem lookupProj_mem_keys (m : Projection) (p : String) (v : Int)
    (h : lookupProj m p = some v) : p ∈ m.map Prod.fst := by
  induction m with
  | nil => simp [lookupProj_nil] at h
  | cons kv rest ih =>
    obtain ⟨k, w⟩ := kv
    rw [lookupProj_cons] at h
    by_cases hk : k = p
    · simp [hk]
    · rw [if_neg hk] at h
      simpa using Or.inr (ih h)

theorem mem_keys_lookupProj (m : Projection) (p : String)
    (h : p ∈ m.map Prod.fst) : ∃ v, lookupProj m p = some v := by
  induction m with
  | nil => simp at h
  | cons kv rest ih =>
    obtain ⟨k, w⟩ := kv
    by_cases hk : k = p
    · exact ⟨w, by rw [lookupProj_cons, if_pos hk]⟩
    · have hm : p ∈ rest.map Prod.fst := by
        simp only [List.map_cons, List.mem_cons] at h
        exact h.resolve_left (fun hh => hk hh.symm)
      obtain ⟨v, hv⟩ := ih hm
      exact ⟨v, by rw [lookupProj_cons, if_neg hk, hv]⟩

theorem lookupProj_of_mem_nodup (m : Projection) (p : String) (v : Int)
    (hnd : (m.map Prod.fst).Nodup) (h : (p, v) ∈ m) : lookupProj m p = some v := by
  induction m with
  | nil => simp at h
  | cons kv rest ih =>
    obtain ⟨k, w⟩ := kv
    simp only [List.map_cons, List.nodup_cons] at hnd
    rcases List.mem_cons.mp h with h1 | h1
    · injection h1 with h1a h1b
      subst h1a
      subst h1b
      rw [lookupProj_cons, if_pos rfl]
    · have hk : k ≠ p := by
        intro hkp
        exact hnd.1 (hkp ▸ List.mem_map_of_mem Prod.fst h1)
      rw [lookupProj_cons, if_neg hk]
      exact ih hnd.2 h1

/-! ### `sumFor`, `totalPoints` -/

theorem sumFor_nil (p : String) : sumFor [] p = 0 := rfl

theorem sumFor_cons (t : Transaction) (rest : List Transaction) (p : String) :
    sumFor (t :: rest) p = (if t.payer = p then t.points else 0) + sumFor rest p := by
  by_cases h : t.payer = p <;> simp [sumFor, List.filter_cons, h]

theorem sumFor_append (l₁ l₂ : List Transaction) (p : String) :
    sumFor (l₁ ++ l₂) p = sumFor l₁ p + sumFor l₂ p := by
  simp [sumFor, List.filter_append]

theorem sumFor_perm {l₁ l₂ : List Transaction} (h : l₁.Perm l₂) (p : String) :
    sumFor l₁ p = sumFor l₂ p :=
  List.Perm.sum_eq ((h.filter _).map _)

theorem sumFor_single (d : Transaction) (p : String) :
    sumFor [d] p = if d.payer = p then d.points else 0 := by
  rw [sumFor_cons, sumFor_nil, add_zero]

theorem sumFor_eq_zero_of_not_mem (l : List Transaction) (p : String)
    (h : p ∉ l.map (fun t => t.payer)) : sumFor l p = 0 := by
  induction l with
  | nil => rfl
  | cons t rest ih =>
    simp only [List.map_cons, List.mem_cons] at h
    push_neg at h
    rw [sumFor_cons, ih h.2, if_neg (fun hh => h.1 hh.symm), add_zero]

theorem totalPoints_cons (t : Transaction) (l : List Transaction) :
    totalPoints (t :: l) = t.points + totalPoints l := by
  simp [totalPoints]

theorem totalPoints_append (l₁ l₂ : List Transaction) :
    totalPoints (l₁ ++ l₂) = totalPoints l₁ + totalPoints l₂ := by
  simp [totalPoints]

theorem totalPoints_perm {l₁ l₂ : List Transaction} (h : l₁.Perm l₂) :
    totalPoints l₁ = totalPoints l₂ :=
  List.Perm.sum_eq (h.map _)

/-! ### The projection built by `buildProjectionFromIndex` -/

theorem lookupProj_foldl_proj :
    ∀ (ts : List Transaction) (m : Projection) (p : String),
    lookupProj
        (ts.foldl (fun m t => setProj m t.payer ((lookupProj m t.payer).getD 0 + t.points)) m) p
      = if p ∈ ts.map (fun t => t.payer)
          then some ((lookupProj m p).getD 0 + sumFor ts p)
          else lookupProj m p := by
  intro ts
  induction ts with
  | nil => intro m p; simp [sumFor]
  | cons t rest ih =>
    intro m p
    rw [List.foldl_cons, ih]
    simp only [lookupProj_setProj]
    by_cases hp : t.payer = p
    · subst hp
      rw [if_pos rfl]
      by_cases hmem : t.payer ∈ rest.map (fun t => t.payer)
      · rw [if_pos hmem, if_pos (by simp), sumFor_cons, if_pos rfl]
        simp only [Option.getD_some, Option.some.injEq]
        omega
      · rw [if_neg hmem, if_pos (by simp), sumFor_cons, if_pos rfl,
          sumFor_eq_zero_of_not_mem rest _ hmem]
        simp only [Option.some.injEq]
        omega
    · rw [if_neg hp]
      have hmem2 : (p ∈ (t :: rest).map (fun t => t.payer)) ↔
          p ∈ rest.map (fun t => t.payer) := by
        simp only [List.map_cons, List.mem_cons]
        constructor
        · intro h
          exact h.resolve_left (fun hh => hp hh.symm)
        · exact Or.inr
      by_cases hmem : p ∈ rest.map (fun t => t.payer)
      · rw [if_pos hmem, if_pos (hmem2.mpr hmem), sumFor_cons, if_neg hp]
        simp only [Option.some.injEq]
        omega
      · rw [if_neg hmem, if_neg (fun hh => hmem (hmem2.mp hh))]

theorem lookupProj_projectOver (l : List Transaction) (p : String) :
    lookupProj (projectOver l) p =
      if p ∈ l.map (fun t => t.payer) then some (sumFor l p) else none := by
  have h := lookupProj_foldl_proj l [] p
  simpa [projectOver, lookupProj_nil] using h

theorem nodupKeys_foldl_proj :
    ∀ (ts : List Transaction) (m : Projection), (m.map Prod.fst).Nodup →
    (((ts.foldl (fun m t => setProj m t.payer ((lookupProj m t.payer).getD 0 + t.points)) m)).map
        Prod.fst).Nodup := by
  intro ts
  induction ts with
  | nil => intro m hm; exact hm
  | cons t rest ih =>
    intro m hm
    rw [List.foldl_cons]
    exact ih _ (nodupKeys_setProj _ _ _ hm)

theorem nodupKeys_projectOver (l : List Transaction) :
    ((projectOver l).map Prod.fst).Nodup :=
  nodupKeys_foldl_proj l [] (by simp)

theorem mem_projectOver_eq_sumFor (l : List Transaction) (p : String) (v : Int)
    (h : (p, v) ∈ projectOver l) : v = sumFor l p := by
  have h1 := lookupProj_of_mem_nodup _ _ _ (nodupKeys_projectOver l) h
  rw [lookupProj_projectOver] at h1
  by_cases h2 : p ∈ l.map (fun t => t.payer)
  · rw [if_pos h2] at h1
    exact (Option.some.inj h1).symm
  · rw [if_neg h2] at h1
    simp at h1

theorem keys_projectOver_mem (l : List Transaction) (p : String)
    (h : p ∈ l.map (fun t => t.payer)) : p ∈ (projectOver l).map Prod.fst := by
  apply lookupProj_mem_keys _ _ (sumFor l p)
  rw [lookupProj_projectOver, if_pos h]

theorem keys_projectOver_sub (l : List Transaction) (p : String)
    (h : p ∈ (projectOver l).map Prod.fst) : p ∈ l.map (fun t => t.payer) := by
  obtain ⟨v, hv⟩ := mem_keys_lookupProj _ _ h
  rw [lookupProj_projectOver] at hv
  by_contra hc
  rw [if_neg hc] at hv
  simp at hv

/-! ### `sumValues` and `SPos` -/

theorem sumValues_setProj (m : Projection) (p : String) (v : Int) :
    sumValues (setProj m p v) = sumValues m - (lookupProj m p).getD 0 + v := by
  induction m with
  | nil => simp [setProj_nil, sumValues, lookupProj_nil]
  | cons kv rest ih =>
    obtain ⟨k, w⟩ := kv
    rw [setProj_cons, lookupProj_cons]
    by_cases hk : k = p
    · rw [if_pos hk, if_pos hk]
      simp [sumValues]
      omega
    · rw [if_neg hk, if_neg hk]
      simp only [sumValues, List.map_cons, List.sum_cons] at *
      omega

theorem sumValues_projectOver (l : List Transaction) :
    sumValues (projectOver l) = totalPoints l := by
  have h : ∀ (ts : List Transaction) (m : Projection),
      sumValues
        (ts.foldl (fun m t => setProj m t.payer ((lookupProj m t.payer).getD 0 + t.points)) m)
        = sumValues m + totalPoints ts := by
    intro ts
    induction ts with
    | nil => intro m; simp [totalPoints]
    | cons t rest ih =>
      intro m
      rw [List.foldl_cons, ih, sumValues_setProj, totalPoints_cons]
      omega
  have h2 := h l []
  simpa [projectOver, sumValues, totalPoints] using h2

theorem SPos_nonneg (l : List Transaction) (ps : List String) : 0 ≤ SPos l ps := by
  apply List.sum_nonneg
  intro x hx
  obtain ⟨p, _, hp⟩ := List.mem_map.mp hx
  rw [← hp]
  exact le_max_right _ _

theorem SPos_eq_zero (l : List Transaction) (ps : List String)
    (h : ∀ p ∈ ps, sumFor l p ≤ 0) : SPos l ps = 0 := by
  apply List.sum_eq_zero
  intro x hx
  obtain ⟨p, hpm, hp⟩ := List.mem_map.mp hx
  rw [← hp, max_eq_right (h p hpm)]

theorem SPos_perm_store {l₁ l₂ : List Transaction} (ps : List String)
    (h : l₁.Perm l₂) : SPos l₁ ps = SPos l₂ ps := by
  unfold SPos
  congr 1
  apply List.map_congr_left
  intro p _
  rw [sumFor_perm h]

theorem sumFor_append_single (l : List Transaction) (d : Transaction) (p : String) :
    sumFor (l ++ [d]) p = sumFor l p + (if d.payer = p then d.points else 0) := by
  rw [sumFor_append, sumFor_single]

theorem SPos_append_debit (l : List Transaction) (d : Transaction) (ps : List String)
    (hnd : ps.Nodup) (hq : d.payer ∈ ps) :
    SPos (l ++ [d]) ps =
      SPos l ps - max (sumFor l d.payer) 0 + max (sumFor l d.payer + d.points) 0 := by
  induction ps with
  | nil => simp at hq
  | cons p ps' ih =>
    rw [List.nodup_cons] at hnd
    rcases List.mem_cons.mp hq with h1 | h1
    · subst h1
      have hrest : ∀ p' ∈ ps', sumFor (l ++ [d]) p' = sumFor l p' := by
        intro p' hp'
        rw [sumFor_append_single, if_neg, add_zero]
        intro hdp
        exact hnd.1 (hdp ▸ hp')
      unfold SPos
      simp only [List.map_cons, List.sum_cons]
      rw [sumFor_append_single, if_pos rfl]
      have hmap : ps'.map (fun p => max (sumFor (l ++ [d]) p) 0)
          = ps'.map (fun p => max (sumFor l p) 0) := by
        apply List.map_congr_left
        intro p' hp'
        rw [hrest p' hp']
      rw [hmap]
      omega
    · have hdp : ¬ (d.payer = p) := by
        intro hdp
        exact hnd.1 (hdp ▸ h1)
      unfold SPos
      simp only [List.map_cons, List.sum_cons]
      have := ih hnd.2 h1
      unfold SPos at this
      rw [sumFor_append_single, if_neg hdp, add_zero, this]
      omega

theorem posTotal_eq_SPos (l : List Transaction) :
    posTotal (projectOver l) = SPos l ((projectOver l).map Prod.fst) := by
  unfold posTotal SPos
  rw [List.map_map]
  congr 1
  apply List.map_congr_left
  intro pv hpv
  obtain ⟨p, v⟩ := pv
  have := mem_projectOver_eq_sumFor l p v hpv
  simp [this]

/-! ### Sorting lemmas: `insertSorted`, `sortByTime` -/

theorem insertSorted_nil (t : Transaction) : insertSorted t [] = [t] := rfl

theorem insertSorted_cons (t x : Transaction) (xs : List Transaction) :
    insertSorted t (x :: xs) =
      if t.timestamp < x.timestamp then t :: x :: xs else x :: insertSorted t xs := rfl

theorem insertSorted_perm (t : Transaction) (l : List Transaction) :
    (insertSorted t l).Perm (t :: l) := by
  induction l with
  | nil => simp [insertSorted_nil]
  | cons x xs ih =>
    rw [insertSorted_cons]
    split_ifs with h
    · exact List.Perm.refl _
    · exact (ih.cons x).trans (List.Perm.swap t x xs)

theorem foldl_insertSorted_perm :
    ∀ (l acc : List Transaction),
    (l.foldl (fun acc t => insertSorted t acc) acc).Perm (acc ++ l) := by
  intro l
  induction l with
  | nil => intro acc; simp
  | cons t rest ih =>
    intro acc
    rw [List.foldl_cons]
    have h1 := ih (insertSorted t acc)
    have h3 : (insertSorted t acc).Perm (t :: acc) := insertSorted_perm t acc
    have h4 : ((t :: acc) ++ rest).Perm (acc ++ t :: rest) := by
      rw [List.cons_append]
      exact List.perm_middle.symm
    exact h1.trans ((h3.append_right rest).trans h4)

theorem sortByTime_perm (l : List Transaction) : (sortByTime l).Perm l := by
  have h := foldl_insertSorted_perm l []
  simpa [sortByTime] using h

theorem insertSorted_sorted (t : Transaction) {l : List Transaction}
    (h : SortedByTime l) : SortedByTime (insertSorted t l) := by
  induction l with
  | nil => simp [insertSorted_nil, SortedByTime]
  | cons x xs ih =>
    rw [SortedByTime, List.pairwise_cons] at h
    obtain ⟨hx, hxs⟩ := h
    rw [insertSorted_cons]
    split_ifs with ht
    · rw [SortedByTime, List.pairwise_cons]
      refine ⟨?_, List.pairwise_cons.mpr ⟨hx, hxs⟩⟩
      intro b hb
      rcases List.mem_cons.mp hb with rfl | hb2
      · exact le_of_lt ht
      · exact le_trans (le_of_lt ht) (hx b hb2)
    · rw [SortedByTime, List.pairwise_cons]
      refine ⟨?_, ih hxs⟩
      intro b hb
      have hb2 := (insertSorted_perm t xs).mem_iff.mp hb
      rcases List.mem_cons.mp hb2 with rfl | hb3
      · exact not_lt.mp ht
      · exact hx b hb3

theorem sortByTime_sorted (l : List Transaction) : SortedByTime (sortByTime l) := by
  have h : ∀ (l acc : List Transaction), SortedByTime acc →
      SortedByTime (l.foldl (fun acc t => insertSorted t acc) acc) := by
    intro l
    induction l with
    | nil => intro acc hacc; exact hacc
    | cons t rest ih =>
      intro acc hacc
      rw [List.foldl_cons]
      exact ih _ (insertSorted_sorted t hacc)
  exact h l [] (by simp [SortedByTime])

theorem insertSorted_append_end (t : Transaction) (l : List Transaction)
    (h : ∀ x ∈ l, x.timestamp ≤ t.timestamp) : insertSorted t l = l ++ [t] := by
  induction l with
  | nil => simp [insertSorted_nil]
  | cons x xs ih =>
    rw [insertSorted_cons, if_neg (not_lt.mpr (h x (List.mem_cons_self x xs)))]
    rw [ih (fun y hy => h y (List.mem_cons_of_mem x hy))]
    rfl

theorem insertSorted_front (t : Transaction) (l₁ m : List Transaction)
    (h : ∀ a ∈ l₁, a.timestamp ≤ t.timestamp) :
    insertSorted t (l₁ ++ m) = l₁ ++ insertSorted t m := by
  induction l₁ with
  | nil => rfl
  | cons a l₁' ih =>
    rw [List.cons_append, insertSorted_cons,
      if_neg (not_lt.mpr (h a (List.mem_cons_self a l₁')))]
    rw [ih (fun y hy => h y (List.mem_cons_of_mem a hy))]
    rfl

theorem foldl_insertSorted_sorted_id :
    ∀ (l acc : List Transaction), SortedByTime (acc ++ l) →
    l.foldl (fun acc t => insertSorted t acc) acc = acc ++ l := by
  intro l
  induction l with
  | nil => intro acc _; simp
  | cons t rest ih =>
    intro acc hpair
    rw [SortedByTime, List.pairwise_append] at hpair
    obtain ⟨hacc, hcons, hcross⟩ := hpair
    have hins : insertSorted t acc = acc ++ [t] :=
      insertSorted_append_end t acc (fun x hx => hcross x hx t (List.mem_cons_self t rest))
    rw [List.foldl_cons, hins]
    have hpair2 : SortedByTime ((acc ++ [t]) ++ rest) := by
      rw [List.append_assoc]
      rw [SortedByTime, List.pairwise_append]
      exact ⟨hacc, by simpa using hcons, by simpa using hcross⟩
    rw [ih (acc ++ [t]) hpair2, List.append_assoc]
    rfl

theorem sortByTime_of_sorted {l : List Transaction} (h : SortedByTime l) :
    sortByTime l = l := by
  have h2 := foldl_insertSorted_sorted_id l [] (by simpa using h)
  simpa [sortByTime] using h2

theorem foldl_insertSorted_front (l₁ l₂ : List Transaction)
    (hl : ∀ a ∈ l₁, ∀ b ∈ l₂, a.timestamp ≤ b.timestamp) :
    ∀ (m : List Transaction),
    l₂.foldl (fun acc t => insertSorted t acc) (l₁ ++ m)
      = l₁ ++ l₂.foldl (fun acc t => insertSorted t acc) m := by
  induction l₂ with
  | nil => intro m; rfl
  | cons t rest ih =>
    intro m
    rw [List.foldl_cons, List.foldl_cons]
    rw [insertSorted_front t l₁ m (fun a ha => hl a ha t (List.mem_cons_self t rest))]
    exact ih (fun a ha b hb => hl a ha b (List.mem_cons_of_mem t hb)) _

theorem sortByTime_append_front {l₁ l₂ : List Transaction} (h1 : SortedByTime l₁)
    (h2 : ∀ a ∈ l₁, ∀ b ∈ l₂, a.timestamp ≤ b.timestamp) :
    sortByTime (l₁ ++ l₂) = l₁ ++ sortByTime l₂ := by
  unfold sortByTime
  rw [List.foldl_append]
  have hid : List.foldl (fun acc t => insertSorted t acc) [] l₁ = l₁ := by
    have h3 := sortByTime_of_sorted h1
    simpa [sortByTime] using h3
  rw [hid]
  have h4 := foldl_insertSorted_front l₁ l₂ h2 []
  simpa using h4

/-! ### Service-level lemmas -/

theorem add_store (s : TransactionService) (ts : List Transaction) :
    (s.add ts).transactionStore = sortByTime (s.transactionStore ++ ts) := rfl

theorem add_snapshot (s : TransactionService) (ts : List Transaction) :
    (s.add ts).transactionSnapshotBalance
      = projectOver (sortByTime (s.transactionStore ++ ts)) := by
  show TransactionService.buildProjectionFromIndex _ 0 = _
  unfold TransactionService.buildProjectionFromIndex
  simp

theorem add_inv (s : TransactionService) (ts : List Transaction) :
    ServiceInv (s.add ts) := by
  constructor
  · rw [add_snapshot, add_store]
  · rw [add_store]
    exact sortByTime_sorted _

theorem initial_inv : ServiceInv initialService :=
  ⟨rfl, by simp [SortedByTime, initialService]⟩

theorem add_balance (s : TransactionService) (ts : List Transaction) (p : String) :
    balanceOf (s.add ts) p = balanceOf s p + sumFor ts p := by
  unfold balanceOf
  rw [add_store, sumFor_perm (sortByTime_perm _), sumFor_append]

theorem add_totalPoints (s : TransactionService) (ts : List Transaction) :
    totalPoints (s.add ts).transactionStore
      = totalPoints s.transactionStore + totalPoints ts := by
  rw [add_store, totalPoints_perm (sortByTime_perm _), totalPoints_append]

theorem add_append_end (s : TransactionService) (d : Transaction)
    (hs : SortedByTime s.transactionStore)
    (hd : ∀ a ∈ s.transactionStore, a.timestamp ≤ d.timestamp) :
    (s.add [d]).transactionStore = s.transactionStore ++ [d] := by
  rw [add_store, sortByTime_append_front hs ?hcross]
  case hcross =>
    intro a ha b hb
    rw [List.mem_singleton] at hb
    subst hb
    exact hd a ha
  rfl

theorem snapshot_balance (s : TransactionService) (hInv : ServiceInv s) (p : String) :
    (lookupProj s.transactionSnapshotBalance p).getD 0 = balanceOf s p := by
  rw [hInv.1, lookupProj_projectOver]
  by_cases h : p ∈ s.transactionStore.map (fun t => t.payer)
  · rw [if_pos h]
    rfl
  · rw [if_neg h]
    simp [balanceOf, sumFor_eq_zero_of_not_mem _ _ h]

/-! ### The spend loop: defining equations -/

theorem spendLoop_zero (clock : Nat → Int) (total : Nat) (s : TransactionService)
    (pl : Budget) (idx debits : Nat) :
    spendLoop clock total 0 s pl idx debits = s := rfl

theorem spendLoop_succ (clock : Nat → Int) (total fuel : Nat) (s : TransactionService)
    (pl : Budget) (idx debits : Nat) :
    spendLoop clock total (fuel + 1) s pl idx debits =
      if pl.gt0 then
        if total ≤ idx then s
        else
          match s.transactionStore[idx]? with
          | none => s
          | some tr =>
            let balance := (lookupProj s.transactionSnapshotBalance tr.payer).getD 0
            let pointsToRemove := min (pl.minPoints tr.points) balance
            if balance ≤ 0 then
              spendLoop clock total fuel s pl (idx + 1) debits
            else
              spendLoop clock total fuel
                (s.add [⟨tr.payer, -1 * pointsToRemove, clock debits⟩])
                (pl.sub pointsToRemove) (idx + 1) (debits + 1)
      else s := rfl

/-! ### The spend loop: invariant preservation, frame, balance lower bound -/

theorem spendLoop_gen (clock : Nat → Int) (total : Nat) :
    ∀ (fuel : Nat) (s : TransactionService) (pl : Budget) (idx debits : Nat),
    ServiceInv s →
    ServiceInv (spendLoop clock total fuel s pl idx debits) ∧
    (∃ ds, (spendLoop clock total fuel s pl idx debits).transactionStore.Perm
        (s.transactionStore ++ ds) ∧ ∀ d ∈ ds, ∃ k, d.timestamp = clock k) ∧
    (∀ p, min (balanceOf s p) 0 ≤
        balanceOf (spendLoop clock total fuel s pl idx debits) p) := by
  intro fuel
  induction fuel with
  | zero =>
    intro s pl idx debits hInv
    rw [spendLoop_zero]
    exact ⟨hInv, ⟨[], by simp, by simp⟩,
      fun p => (min_le_left _ _)⟩
  | succ fuel ih =>
    intro s pl idx debits hInv
    rw [spendLoop_succ]
    by_cases hgt : pl.gt0
    · rw [if_pos hgt]
      by_cases hidx : total ≤ idx
      · rw [if_pos hidx]
        exact ⟨hInv, ⟨[], by simp, by simp⟩, fun p => (min_le_left _ _)⟩
      · rw [if_neg hidx]
        cases hget : s.transactionStore[idx]? with
        | none =>
          simp only [hget]
          exact ⟨hInv, ⟨[], by simp, by simp⟩, fun p => (min_le_left _ _)⟩
        | some tr =>
          simp only [hget]
          by_cases hbal : (lookupProj s.transactionSnapshotBalance tr.payer).getD 0 ≤ 0
          · simp only [if_pos hbal]
            exact ih s pl (idx + 1) debits hInv
          · simp only [if_neg hbal]
            set take := min (pl.minPoints tr.points)
              ((lookupProj s.transactionSnapshotBalance tr.payer).getD 0) with htake
            set d : Transaction := ⟨tr.payer, -1 * take, clock debits⟩ with hd
            have hInv1 : ServiceInv (s.add [d]) := add_inv s [d]
            obtain ⟨hInvR, ⟨ds, hperm, hds⟩, hbound⟩ :=
              ih (s.add [d]) (pl.sub take) (idx + 1) (debits + 1) hInv1
            refine ⟨hInvR, ⟨d :: ds, ?_, ?_⟩, ?_⟩
            · have h1 : (s.add [d]).transactionStore.Perm (s.transactionStore ++ [d]) := by
                rw [add_store]
                exact sortByTime_perm _
              have h2 := hperm.trans (h1.append_right ds)
              refine h2.trans ?_
              rw [List.append_assoc]
              exact List.Perm.refl _
            · intro d' hd'
              rcases List.mem_cons.mp hd' with rfl | hd2
              · exact ⟨debits, rfl⟩
              · exact hds d' hd2
            · intro p
              have hb1 := hbound p
              have hbalval := snapshot_balance s hInv tr.payer
              have htakele : take ≤ balanceOf s tr.payer := by
                rw [← hbalval]
                exact min_le_right _ _
              have hadd := add_balance s [d] p
              rw [sumFor_single] at hadd
              have hdp : d.payer = tr.payer := rfl
              have hdpts : d.points = -1 * take := rfl
              by_cases hp : tr.payer = p
              · rw [hdp, if_pos hp, hdpts] at hadd
                have hbalpos : 0 < balanceOf s tr.payer := by
                  rw [← hbalval]
                  omega
                rw [hp] at hbalpos htakele
                omega
              · rw [hdp, if_neg hp] at hadd
                omega
    · rw [if_neg hgt]
      exact ⟨hInv, ⟨[], by simp, by simp⟩, fun p => (min_le_left _ _)⟩

/-! ### `spendPoints`: unfolding and reachability invariants -/

theorem spendPoints_snd (clock : Nat → Int) (s : TransactionService) (amt : JSNum) :
    (s.spendPoints clock amt).2 =
      if amt.isNaN || amt.lt0 then s
      else spendLoop clock s.transactionStore.length s.transactionStore.length
        s amt.toBudget 0 0 := by
  unfold TransactionService.spendPoints
  split_ifs <;> rfl

theorem reachable_inv {s : TransactionService} (h : Reachable s) : ServiceInv s := by
  induction h with
  | init => exact initial_inv
  | add ts _ ih => exact add_inv _ ts
  | spend clock amt _ ih =>
    rw [spendPoints_snd]
    split_ifs with hg
    · exact ih
    · exact (spendLoop_gen clock _ _ _ _ 0 0 ih).1

/-! ### The spend loop under a no-future-dated-store hypothesis -/

theorem lookupProj_getD_balance (l : List Transaction) (p : String) :
    (lookupProj (projectOver l) p).getD 0 = sumFor l p := by
  rw [lookupProj_projectOver]
  by_cases h : p ∈ l.map (fun t => t.payer)
  · rw [if_pos h]
    rfl
  · rw [if_neg h]
    simp [sumFor_eq_zero_of_not_mem _ _ h]

theorem spendLoop_main (clock : Nat → Int) (store0 : List Transaction) (ps : List String)
    (hsort : SortedByTime store0)
    (hclk : ∀ t ∈ store0, ∀ k, t.timestamp ≤ clock k)
    (hps : ∀ t ∈ store0, t.payer ∈ ps)
    (hnd : ps.Nodup) :
    ∀ (fuel : Nat) (rest : List Transaction) (pl : Budget) (idx debits : Nat),
    idx + fuel = store0.length →
    (∀ d ∈ rest, ∃ k, d.timestamp = clock k) →
    (pl.gt0 = true → ∀ p, sumFor (store0 ++ rest) p ≤ 0 ∨
        sumFor (store0 ++ rest) p ≤ sumFor (store0.drop idx) p) →
    ∃ rest',
      spendLoop clock store0.length fuel
          ⟨store0 ++ rest, projectOver (store0 ++ rest)⟩ pl idx debits
        = ⟨store0 ++ rest', projectOver (store0 ++ rest')⟩ ∧
      (∀ d ∈ rest', ∃ k, d.timestamp = clock k) ∧
      (∀ a : Int, pl = .fin a → 0 ≤ a →
        totalPoints (store0 ++ rest) - totalPoints (store0 ++ rest')
          = min a (SPos (store0 ++ rest) ps)) := by
  intro fuel
  induction fuel with
  | zero =>
    intro rest pl idx debits hfuel hrest hJ
    refine ⟨rest, by rw [spendLoop_zero], hrest, ?_⟩
    intro a hpl ha
    subst hpl
    have hS := SPos_nonneg (store0 ++ rest) ps
    by_cases hgt : (Budget.fin a).gt0 = true
    · have hJ2 := hJ hgt
      have hidx : store0.length ≤ idx := by omega
      have hdrop : store0.drop idx = [] := List.drop_of_length_le hidx
      have hzero : SPos (store0 ++ rest) ps = 0 := by
        apply SPos_eq_zero
        intro p _
        rcases hJ2 p with h | h
        · exact h
        · rw [hdrop, sumFor_nil] at h
          exact h
      rw [hzero]
      omega
    · have : ¬ (0 < a) := by
        simpa [Budget.gt0] using hgt
      have ha0 : a = 0 := by omega
      subst ha0
      omega
  | succ fuel ih =>
    intro rest pl idx debits hfuel hrest hJ
    have hlt : idx < store0.length := by omega
    rw [spendLoop_succ]
    by_cases hgt : pl.gt0 = true
    · rw [if_pos hgt, if_neg (by omega)]
      have hsome : (⟨store0 ++ rest, projectOver (store0 ++ rest)⟩ :
          TransactionService).transactionStore[idx]? = some (store0.get ⟨idx, hlt⟩) := by
        show (store0 ++ rest)[idx]? = _
        rw [List.getElem?_append_left hlt, List.getElem?_eq_getElem hlt]
        simp [List.get_eq_getElem]
      rw [hsome]
      set tr := store0.get ⟨idx, hlt⟩ with htr
      have htrmem : tr ∈ store0 := List.get_mem store0 idx hlt
      have hdropcons : store0.drop idx = tr :: store0.drop (idx + 1) := by
        rw [htr, List.get_eq_getElem]
        exact List.drop_eq_getElem_cons hlt
      simp only
      rw [lookupProj_getD_balance]
      set B := sumFor (store0 ++ rest) tr.payer with hB
      by_cases hbal : B ≤ 0
      · rw [if_pos hbal]
        have hJ' : pl.gt0 = true → ∀ p, sumFor (store0 ++ rest) p ≤ 0 ∨
            sumFor (store0 ++ rest) p ≤ sumFor (store0.drop (idx + 1)) p := by
          intro hgt2 p
          by_cases hp : tr.payer = p
          · left
            rw [← hp]
            exact hbal
          · rcases hJ hgt2 p with h | h
            · exact Or.inl h
            · right
              rw [hdropcons, sumFor_cons, if_neg hp] at h
              omega
        obtain ⟨rest', heq, hclk', hK4⟩ := ih rest pl (idx + 1) debits (by omega) hrest hJ'
        exact ⟨rest', heq, hclk', hK4⟩
      · rw [if_neg hbal]
        push_neg at hbal
        set take := min (pl.minPoints tr.points) B with htake
        set d : Transaction := ⟨tr.payer, -1 * take, clock debits⟩ with hd
        set rest1 := sortByTime (rest ++ [d]) with hrest1
        have hcross : ∀ a ∈ store0, ∀ b ∈ rest ++ [d], a.timestamp ≤ b.timestamp := by
          intro a ha b hb
          rcases List.mem_append.mp hb with hb1 | hb1
          · obtain ⟨k, hk⟩ := hrest b hb1
            rw [hk]
            exact hclk a ha k
          · rw [List.mem_singleton] at hb1
            subst hb1
            exact hclk a ha debits
        have hstore1 : ((⟨store0 ++ rest, projectOver (store0 ++ rest)⟩ :
            TransactionService).add [d]).transactionStore = store0 ++ rest1 := by
          rw [add_store]
          show sortByTime ((store0 ++ rest) ++ [d]) = _
          rw [List.append_assoc, sortByTime_append_front hsort hcross]
        have hs1 : (⟨store0 ++ rest, projectOver (store0 ++ rest)⟩ :
            TransactionService).add [d]
            = ⟨store0 ++ rest1, projectOver (store0 ++ rest1)⟩ := by
          have hsnap1 : ((⟨store0 ++ rest, projectOver (store0 ++ rest)⟩ :
              TransactionService).add [d]).transactionSnapshotBalance
              = projectOver (store0 ++ rest1) := by
            rw [add_snapshot]
            show projectOver (sortByTime ((store0 ++ rest) ++ [d])) = _
            rw [List.append_assoc, sortByTime_append_front hsort hcross]
          have heta : (⟨store0 ++ rest, projectOver (store0 ++ rest)⟩ :
              TransactionService).add [d]
              = ⟨((⟨store0 ++ rest, projectOver (store0 ++ rest)⟩ :
                  TransactionService).add [d]).transactionStore,
                 ((⟨store0 ++ rest, projectOver (store0 ++ rest)⟩ :
                  TransactionService).add [d]).transactionSnapshotBalance⟩ := rfl
          rw [heta, hstore1, hsnap1]
        have hperm1 : (store0 ++ rest1).Perm ((store0 ++ rest) ++ [d]) := by
          rw [List.append_assoc]
          exact ((sortByTime_perm (rest ++ [d])).append_left store0)
        have hsum1 : ∀ p, sumFor (store0 ++ rest1) p
            = sumFor (store0 ++ rest) p + (if tr.payer = p then -1 * take else 0) := by
          intro p
          rw [sumFor_perm hperm1, sumFor_append, sumFor_single]
        have htakeB : take ≤ B := min_le_right _ _
        have hrest1clk : ∀ d' ∈ rest1, ∃ k, d'.timestamp = clock k := by
          intro d' hd'
          have hmem := (sortByTime_perm (rest ++ [d])).mem_iff.mp hd'
          rcases List.mem_append.mp hmem with h1 | h1
          · exact hrest d' h1
          · rw [List.mem_singleton] at h1
            subst h1
            exact ⟨debits, rfl⟩
        have hJ1 : (pl.sub take).gt0 = true → ∀ p,
            sumFor (store0 ++ rest1) p ≤ 0 ∨
            sumFor (store0 ++ rest1) p ≤ sumFor (store0.drop (idx + 1)) p := by
          intro hgt1 p
          rw [hsum1 p]
          by_cases hp : tr.payer = p
          · rw [if_pos hp]
            have hBp : B = sumFor (store0 ++ rest) p := by rw [hB, hp]
            have hJp : sumFor (store0 ++ rest) p ≤ sumFor (store0.drop idx) p := by
              rcases hJ hgt p with h | h
              · omega
              · exact h
            rw [hdropcons, sumFor_cons, if_pos hp] at hJp
            cases pl with
            | posInf =>
              have htakeval : take = min tr.points B := rfl
              omega
            | fin x =>
              have htakeval : take = min (min tr.points x) B := rfl
              have hx : 0 < x - take := by
                simpa [Budget.sub, Budget.gt0] using hgt1
              omega
          · rw [if_neg hp, add_zero]
            rcases hJ hgt p with h | h
            · exact Or.inl h
            · right
              rw [hdropcons, sumFor_cons, if_neg hp] at h
              omega
        obtain ⟨rest2, heq2, hclk2, hK42⟩ :=
          ih rest1 (pl.sub take) (idx + 1) (debits + 1) (by omega) hrest1clk hJ1
        rw [hs1]
        refine ⟨rest2, heq2, hclk2, ?_⟩
        intro a hpl ha
        subst hpl
        have htakeval : take = min (min tr.points a) B := rfl
        have htakea : take ≤ a := by omega
        have hK4' := hK42 (a - take) rfl (by omega)
        have htp1 : totalPoints (store0 ++ rest1)
            = totalPoints (store0 ++ rest) + (-1 * take) := by
          rw [totalPoints_perm hperm1, totalPoints_append]
          have : totalPoints [d] = -1 * take := by
            rw [totalPoints_cons]
            show d.points + totalPoints [] = -1 * take
            have hdp : d.points = -1 * take := rfl
            rw [hdp]
            simp [totalPoints]
          omega
        have hSpos1 : SPos (store0 ++ rest1) ps = SPos (store0 ++ rest) ps - take := by
          rw [SPos_perm_store ps hperm1]
          have hdps : d.payer ∈ ps := hps tr htrmem
          have h1 := SPos_append_debit (store0 ++ rest) d ps hnd hdps
          have hdpayer : d.payer = tr.payer := rfl
          have hdpts : d.points = -1 * take := rfl
          rw [hdpayer, hdpts] at h1
          rw [h1, ← hB]
          have hm1 : max B 0 = B := by omega
          have hm2 : max (B + -1 * take) 0 = B - take := by omega
          rw [hm1, hm2]
          omega
        rw [htp1, hSpos1] at hK4'
        omega
    · rw [if_neg hgt]
      refine ⟨rest, rfl, hrest, ?_⟩
      intro a hpl ha
      subst hpl
      have : ¬ (0 < a) := by
        simpa [Budget.gt0] using hgt
      have ha0 : a = 0 := by omega
      subst ha0
      have hS := SPos_nonneg (store0 ++ rest) ps
      omega

/-! ### `spendPoints`: top-level corollaries -/

theorem spendPoints_guard (clock : Nat → Int) (s : TransactionService) (amt : JSNum)
    (h : (amt.isNaN || amt.lt0) = true) :
    s.spendPoints clock amt = (.error .invalidAmount, s) := by
  unfold TransactionService.spendPoints
  rw [if_pos h]

theorem spendPoints_ok (clock : Nat → Int) (s : TransactionService) (amt : JSNum)
    (h : (amt.isNaN || amt.lt0) = false) :
    s.spendPoints clock amt =
      (.ok ((spendLoop clock s.transactionStore.length s.transactionStore.length
          s amt.toBudget 0 0).buildProjectionFromIndex (s.transactionStore.length : Int)),
       spendLoop clock s.transactionStore.length s.transactionStore.length
          s amt.toBudget 0 0) := by
  unfold TransactionService.spendPoints
  rw [if_neg (by simp [h])]

theorem buildProjectionFromIndex_append (store0 rest : List Transaction)
    (m : Projection) :
    TransactionService.buildProjectionFromIndex ⟨store0 ++ rest, m⟩
        (store0.length : Int) = projectOver rest := by
  show projectOver
      (List.drop ((max ((store0.length : Int)) 0).toNat) (store0 ++ rest)) = projectOver rest
  have h2 : (max ((store0.length : Int)) 0).toNat = store0.length := by omega
  rw [h2, List.drop_left]

theorem service_eta (s : TransactionService) :
    s = ⟨s.transactionStore, s.transactionSnapshotBalance⟩ := rfl

/-- The combined outcome of a successful `spendPoints` call on a reachable
state whose stored timestamps never exceed the debit clock: the store grows by
a suffix `ds` of clock-stamped synthetic debits, the returned entries are the
projection of that suffix, and — for a finite amount `a ≥ 0` — the total
points removed equal `min a (spendable total at call start)`. -/
theorem spendPoints_main (clock : Nat → Int) (s : TransactionService) (amt : JSNum)
    (hreach : Reachable s)
    (hfut : ∀ t ∈ s.transactionStore, ∀ k, t.timestamp ≤ clock k)
    (hguard : (amt.isNaN || amt.lt0) = false) :
    ∃ ds,
      (s.spendPoints clock amt).2.transactionStore = s.transactionStore ++ ds ∧
      (∀ d ∈ ds, ∃ k, d.timestamp = clock k) ∧
      (s.spendPoints clock amt).1 = .ok (projectOver ds) ∧
      (∀ a : Int, amt = .fin a → 0 ≤ a →
        totalPoints s.transactionStore - totalPoints (s.transactionStore ++ ds)
          = min a (posTotal (projectOver s.transactionStore))) := by
  have hInv := reachable_inv hreach
  set store0 := s.transactionStore with hstore0
  set ps := (projectOver store0).map Prod.fst with hps0
  have hnd : ps.Nodup := nodupKeys_projectOver store0
  have hps : ∀ t ∈ store0, t.payer ∈ ps := by
    intro t ht
    exact keys_projectOver_mem store0 t.payer (List.mem_map_of_mem _ ht)
  have hs : s = ⟨store0 ++ [], projectOver (store0 ++ [])⟩ := by
    rw [List.append_nil]
    rw [service_eta s, hInv.1]
  have hJ : (amt.toBudget).gt0 = true → ∀ p, sumFor (store0 ++ []) p ≤ 0 ∨
      sumFor (store0 ++ []) p ≤ sumFor (store0.drop 0) p := by
    intro _ p
    right
    rw [List.append_nil, List.drop_zero]
  obtain ⟨rest', heq, hclk', hK4⟩ :=
    spendLoop_main clock store0 ps hInv.2 hfut hps hnd store0.length []
      amt.toBudget 0 0 (by omega) (by simp) hJ
  refine ⟨rest', ?_, hclk', ?_, ?_⟩
  · rw [spendPoints_ok clock s amt hguard]
    show (spendLoop clock store0.length store0.length s amt.toBudget 0 0).transactionStore
      = store0 ++ rest'
    rw [hs, heq]
  · rw [spendPoints_ok clock s amt hguard]
    show Except.ok ((spendLoop clock store0.length store0.length
        s amt.toBudget 0 0).buildProjectionFromIndex (store0.length : Int)) = _
    rw [hs, heq]
    rw [service_eta (⟨store0 ++ rest', projectOver (store0 ++ rest')⟩ : TransactionService)]
    rw [buildProjectionFromIndex_append]
  · intro a hamt ha
    subst hamt
    have hK4' := hK4 a rfl ha
    simp only [List.append_nil] at hK4'
    rw [posTotal_eq_SPos]
    exact hK4'

/-! ### Balance non-negativity across spend sequences -/

theorem spendPoints_nonneg_single (clock : Nat → Int) (s : TransactionService)
    (amt : JSNum) (hInv : ServiceInv s) (h : ∀ p, 0 ≤ balanceOf s p) :
    ∀ p, 0 ≤ balanceOf (s.spendPoints clock amt).2 p := by
  intro p
  rw [spendPoints_snd]
  split_ifs with hg
  · exact h p
  · have hb := (spendLoop_gen clock s.transactionStore.length s.transactionStore.length
      s amt.toBudget 0 0 hInv).2.2 p
    have hp := h p
    omega

theorem spendSeq_nonneg : ∀ (calls : List ((Nat → Int) × JSNum)) (s : TransactionService),
    Reachable s → (∀ p, 0 ≤ balanceOf s p) → ∀ p, 0 ≤ balanceOf (spendSeq calls s) p := by
  intro calls
  induction calls with
  | nil =>
    intro s _ hpos p
    exact hpos p
  | cons c rest ih =>
    intro s hreach hpos p
    have h1 : spendSeq (c :: rest) s = spendSeq rest ((s.spendPoints c.1 c.2).2) := rfl
    rw [h1]
    exact ih _ (Reachable.spend c.1 c.2 hreach)
      (spendPoints_nonneg_single c.1 s c.2 (reachable_inv hreach) hpos) p

theorem spendPoints_min_bound_single (clock : Nat → Int) (s : TransactionService)
    (amt : JSNum) (hInv : ServiceInv s) (p : String) :
    min (balanceOf s p) 0 ≤ balanceOf (s.spendPoints clock amt).2 p := by
  rw [spendPoints_snd]
  split_ifs with hg
  · exact min_le_left _ _
  · exact (spendLoop_gen clock s.transactionStore.length s.transactionStore.length
      s amt.toBudget 0 0 hInv).2.2 p

theorem spendSeq_min_bound : ∀ (calls : List ((Nat → Int) × JSNum))
    (s : TransactionService), Reachable s → ∀ p,
    min (balanceOf s p) 0 ≤ balanceOf (spendSeq calls s) p := by
  intro calls
  induction calls with
  | nil =>
    intro s _ p
    exact min_le_left _ _
  | cons c rest ih =>
    intro s hreach p
    have h1 : spendSeq (c :: rest) s = spendSeq rest ((s.spendPoints c.1 c.2).2) := rfl
    rw [h1]
    have hstep := spendPoints_min_bound_single c.1 s c.2 (reachable_inv hreach) p
    have hrest := ih _ (Reachable.spend c.1 c.2 hreach) p
    omega

/-! ### The frame of a spend call -/

theorem spendPoints_frame (clock : Nat → Int) (s : TransactionService) (amt : JSNum)
    (hreach : Reachable s) :
    ∃ ds, ((s.spendPoints clock amt).2).transactionStore.Perm
        (s.transactionStore ++ ds) ∧ ∀ d ∈ ds, ∃ k, d.timestamp = clock k := by
  rw [spendPoints_snd]
  split_ifs with hg
  · exact ⟨[], by simp, by simp⟩
  · exact (spendLoop_gen clock s.transactionStore.length s.transactionStore.length
      s amt.toBudget 0 0 (reachable_inv hreach)).2.1

/-! ### Binary search -/

theorem bsearchLoop_zero (l : List Transaction) (tms : Int) (low high : Int) :
    bsearchLoop l tms 0 low high = -1 := rfl

theorem bsearchLoop_succ (l : List Transaction) (tms : Int) (fuel : Nat)
    (low high : Int) :
    bsearchLoop l tms (fuel + 1) low high =
      if low ≤ high then
        match l[((low + high) / 2).toNat]? with
        | none => -1
        | some tr =>
          if tr.timestamp < tms then bsearchLoop l tms fuel ((low + high) / 2 + 1) high
          else if tms < tr.timestamp then bsearchLoop l tms fuel low ((low + high) / 2 - 1)
          else (low + high) / 2
      else -1 := rfl

theorem bsearchLoop_sound (l : List Transaction) (tms : Int) :
    ∀ (fuel : Nat) (low high : Int), 0 ≤ low →
    bsearchLoop l tms fuel low high = -1 ∨
    ∃ (i : Nat) (h : i < l.length), bsearchLoop l tms fuel low high = (i : Int) ∧
      (l.get ⟨i, h⟩).timestamp = tms := by
  intro fuel
  induction fuel with
  | zero =>
    intro low high _
    left
    rfl
  | succ fuel ih =>
    intro low high hlow
    rw [bsearchLoop_succ]
    by_cases hle : low ≤ high
    · rw [if_pos hle]
      split
      · left
        rfl
      · rename_i tr hget
        by_cases h1 : tr.timestamp < tms
        · rw [if_pos h1]
          exact ih _ high (by omega)
        · rw [if_neg h1]
          by_cases h2 : tms < tr.timestamp
          · rw [if_pos h2]
            exact ih low _ hlow
          · rw [if_neg h2]
            right
            have htr : tr.timestamp = tms := by omega
            obtain ⟨hbound, hgetEq⟩ := List.getElem?_eq_some.mp hget
            refine ⟨((low + high) / 2).toNat, hbound, by omega, ?_⟩
            show (l[((low + high) / 2).toNat]).timestamp = tms
            rw [hgetEq]
            exact htr
    · rw [if_neg hle]
      left
      rfl

theorem sorted_get_mono (l : List Transaction) (hsort : SortedByTime l)
    (j1 j2 : Nat) (h1 : j1 < l.length) (h2 : j2 < l.length) (hle : j1 ≤ j2) :
    (l.get ⟨j1, h1⟩).timestamp ≤ (l.get ⟨j2, h2⟩).timestamp := by
  rcases Nat.eq_or_lt_of_le hle with heq | hlt
  · subst heq
    exact le_refl _
  · exact List.pairwise_iff_get.mp hsort ⟨j1, h1⟩ ⟨j2, h2⟩ hlt

theorem bsearchLoop_complete (l : List Transaction) (tms : Int)
    (hsort : SortedByTime l) :
    ∀ (fuel : Nat) (low high : Int), 0 ≤ low → high ≤ (l.length : Int) - 1 →
    (high + 1 - low).toNat ≤ fuel →
    (∃ i : Nat, low ≤ (i : Int) ∧ (i : Int) ≤ high ∧ ∃ h : i < l.length,
        (l.get ⟨i, h⟩).timestamp = tms) →
    bsearchLoop l tms fuel low high ≠ -1 := by
  intro fuel
  induction fuel with
  | zero =>
    intro low high hlow hhigh hfuel hex
    obtain ⟨i, hi1, hi2, _⟩ := hex
    omega
  | succ fuel ih =>
    intro low high hlow hhigh hfuel hex
    obtain ⟨i, hi1, hi2, hib, hit⟩ := hex
    rw [bsearchLoop_succ]
    have hle : low ≤ high := by omega
    rw [if_pos hle]
    have hmid1 : low ≤ (low + high) / 2 := by omega
    have hmid2 : (low + high) / 2 ≤ high := by omega
    have hmidlt : ((low + high) / 2).toNat < l.length := by omega
    split
    · rename_i hget
      rw [List.getElem?_eq_getElem hmidlt] at hget
      simp at hget
    · rename_i tr hget
      obtain ⟨hbound, hgetEq⟩ := List.getElem?_eq_some.mp hget
      have htrg : l.get ⟨((low + high) / 2).toNat, hmidlt⟩ = tr := by
        rw [List.get_eq_getElem]
        exact hgetEq
      by_cases hc1 : tr.timestamp < tms
      · rw [if_pos hc1]
        apply ih ((low + high) / 2 + 1) high (by omega) hhigh (by omega)
        refine ⟨i, ?_, hi2, hib, hit⟩
        by_contra hcon
        push_neg at hcon
        have hmono := sorted_get_mono l hsort i (((low + high) / 2).toNat) hib hmidlt (by omega)
        rw [hit, htrg] at hmono
        omega
      · rw [if_neg hc1]
        by_cases hc2 : tms < tr.timestamp
        · rw [if_pos hc2]
          apply ih low ((low + high) / 2 - 1) hlow (by omega) (by omega)
          refine ⟨i, hi1, ?_, hib, hit⟩
          by_contra hcon
          push_neg at hcon
          have hmono := sorted_get_mono l hsort (((low + high) / 2).toNat) i hmidlt hib (by omega)
          rw [hit, htrg] at hmono
          omega
        · rw [if_neg hc2]
          intro hcon
          omega

theorem findIndexFromTimestamp_def (l : List Transaction) (tms : Int) :
    findIndexFromTimestamp l tms
      = bsearchLoop l tms (l.length + 1) 0 ((l.length : Int) - 1) := rfl

/-! ### Validation of the append route -/

theorem unmarshalTransaction_char (r : RawTransaction) :
    (badEntry r = true → ∃ e, unmarshalTransaction r = .error e) ∧
    (badEntry r = false → unmarshalTransaction r = .ok ⟨r.payer, r.points, r.timestamp⟩) := by
  unfold unmarshalTransaction validateTransaction badEntry
  by_cases h1 : payerFalsy r.payer
  · simp [h1]
  · by_cases h2 : r.timestamp.isNone
    · simp [h1, h2]
    · by_cases h3 : pointsInvalid r.points
      · simp [h1, h2, h3]
      · simp [h1, h2, h3]

theorem unmarshalBatch_err_iff : ∀ (body : List RawTransaction),
    (∃ e, unmarshalBatch body = .error e) ↔ ∃ r ∈ body, badEntry r = true := by
  intro body
  induction body with
  | nil => simp [unmarshalBatch]
  | cons r rest ih =>
    simp only [unmarshalBatch]
    cases hu : unmarshalTransaction r with
    | error e =>
      have hbad : badEntry r = true := by
        by_contra hc
        have hok := (unmarshalTransaction_char r).2 (by simpa using hc)
        rw [hok] at hu
        simp at hu
      constructor
      · intro _
        exact ⟨r, List.mem_cons_self r rest, hbad⟩
      · intro _
        exact ⟨e, rfl⟩
    | ok t =>
      have hgood : badEntry r = false := by
        by_contra hc
        obtain ⟨e, he⟩ := (unmarshalTransaction_char r).1 (by simpa using hc)
        rw [he] at hu
        simp at hu
      cases hrest : unmarshalBatch rest with
      | error e2 =>
        constructor
        · intro _
          obtain ⟨r', hr', hbad'⟩ := ih.mp ⟨e2, hrest⟩
          exact ⟨r', List.mem_cons_of_mem r hr', hbad'⟩
        · intro _
          exact ⟨e2, rfl⟩
      | ok ts =>
        constructor
        · intro ⟨e', he'⟩
          simp at he'
        · intro ⟨r', hr', hbad'⟩
          rcases List.mem_cons.mp hr' with heq | hmem
          · subst heq
            rw [hgood] at hbad'
            simp at hbad'
          · obtain ⟨e2, he2⟩ := ih.mpr ⟨r', hmem, hbad'⟩
            rw [he2] at hrest
            simp at hrest

theorem addTransactionRoute_atomic (s : TransactionService) (body : List RawTransaction) :
    (addTransactionRoute s body).2.isSome = true → (addTransactionRoute s body).1 = s := by
  unfold addTransactionRoute
  cases unmarshalBatch body <;> simp

/-! ### Claim theorems -/

/-- C1: for every state reachable by any sequence of `add` and `spendPoints`
calls, `showPayerPoints` returns a record in which every payer occurring in
some stored transaction appears as a key whose value is the sum of the points
of all stored transactions of that payer (payers with net sum 0 included with
value 0), and no other key appears. -/
theorem C1_projection_correct (s : TransactionService) (hreach : Reachable s)
    (p : String) :
    lookupProj (s.showPayerPoints) p
      = if p ∈ s.transactionStore.map (fun t => t.payer)
          then some (balanceOf s p) else none := by
  have hInv := reachable_inv hreach
  show lookupProj s.transactionSnapshotBalance p = _
  rw [hInv.1, lookupProj_projectOver]
  rfl

/-- Witness for C1 at the worked example's reachable state and payer DANNON. -/
theorem C1_projection_correct_witness :
    Reachable (initialService.add mockTransactions) ∧
    lookupProj ((initialService.add mockTransactions).showPayerPoints) pDannon
      = if pDannon ∈ (initialService.add mockTransactions).transactionStore.map
            (fun t => t.payer)
          then some (balanceOf (initialService.add mockTransactions) pDannon)
          else none :=
  ⟨Reachable.add mockTransactions Reachable.init,
   C1_projection_correct _ (Reachable.add mockTransactions Reachable.init) pDannon⟩

/-- C2 counterexample: on the reachable state with store `[{B,5,@0},{A,3,@10}]`
(`A` future-dated relative to the spend-time clock 5) the spendable total is
8, but `Spend(6)`'s returned entries are `[(A, 3)]`, whose negated sum `-3`
is not `min 6 8 = 6`: the mid-loop re-sort displaces the walked entries, so
conservation fails as stated. -/
theorem C2_conservation_counterexample :
    Reachable futureDatedService ∧
    posTotal (projectOver futureDatedService.transactionStore) = 8 ∧
    (futureDatedService.spendPoints (constClock 5) (.fin 6)).1 = .ok [(pA, 3)] ∧
    -(sumValues [((pA : String), (3 : Int))])
      ≠ min 6 (posTotal (projectOver futureDatedService.transactionStore)) :=
  ⟨Reachable.add _ Reachable.init, by decide, rfl, by decide⟩

/-- C2 (amended): on a reachable state none of whose stored transactions is
dated after the debit clock, a `Spend` of a finite amount `a ≥ 0` returns
entries whose negated sum — equally the decrease of the total stored points —
equals `min a S`, `S` the sum of the positive per-payer aggregate balances at
call start. -/
theorem C2_conservation (clock : Nat → Int) (s : TransactionService) (a : Int)
    (hreach : Reachable s)
    (hfut : ∀ t ∈ s.transactionStore, ∀ k, t.timestamp ≤ clock k)
    (ha : 0 ≤ a) :
    ∃ entries,
      (s.spendPoints clock (.fin a)).1 = .ok entries ∧
      -(sumValues entries) = min a (posTotal (projectOver s.transactionStore)) ∧
      totalPoints s.transactionStore
          - totalPoints (s.spendPoints clock (.fin a)).2.transactionStore
        = min a (posTotal (projectOver s.transactionStore)) := by
  have hguard : ((JSNum.fin a).isNaN || (JSNum.fin a).lt0) = false := by
    simp [JSNum.isNaN, JSNum.lt0]
    omega
  obtain ⟨ds, hstore, hclk, hok, hK4⟩ :=
    spendPoints_main clock s (.fin a) hreach hfut hguard
  have hrem := hK4 a rfl ha
  refine ⟨projectOver ds, hok, ?_, ?_⟩
  · rw [sumValues_projectOver]
    rw [totalPoints_append] at hrem
    omega
  · rw [hstore]
    exact hrem

/-- Witness for C2 (amended) on the state with one transaction `{A,10,@0}`,
spend clock 100 and amount 4. -/
theorem C2_conservation_witness :
    (∀ t ∈ (initialService.add [⟨pA, 10, 0⟩]).transactionStore,
      ∀ k : Nat, t.timestamp ≤ constClock 100 k) ∧
    (0 : Int) ≤ 4 ∧
    ∃ entries,
      ((initialService.add [⟨pA, 10, 0⟩]).spendPoints
          (constClock 100) (.fin 4)).1 = .ok entries ∧
      -(sumValues entries) = min 4 (posTotal
        (projectOver (initialService.add [⟨pA, 10, 0⟩]).transactionStore)) ∧
      totalPoints (initialService.add [⟨pA, 10, 0⟩]).transactionStore
          - totalPoints ((initialService.add [⟨pA, 10, 0⟩]).spendPoints
              (constClock 100) (.fin 4)).2.transactionStore
        = min 4 (posTotal
            (projectOver (initialService.add [⟨pA, 10, 0⟩]).transactionStore)) :=
  by
  have hfut : ∀ t ∈ (initialService.add [⟨pA, 10, 0⟩]).transactionStore,
      ∀ k : Nat, t.timestamp ≤ constClock 100 k := by
    intro t ht k
    have hstore : (initialService.add [⟨pA, 10, 0⟩]).transactionStore
        = [⟨pA, 10, 0⟩] := rfl
    rw [hstore] at ht
    have h1 := List.mem_singleton.mp ht
    subst h1
    show (0 : Int) ≤ 100
    decide
  exact ⟨hfut, by decide,
    C2_conservation (constClock 100) _ 4 (Reachable.add _ Reachable.init) hfut
      (by decide)⟩

/-- C3 counterexample: the reachable state obtained by appending `{A,-200,@0}`
has `A`'s aggregate balance `-200 < 0`, and it is still `-200` after a
`Spend(100)` call, refuting "after any sequence of Spend calls on any
reachable state the balance is never less than 0". -/
theorem C3_nonneg_counterexample :
    Reachable negativeBalanceService ∧
    balanceOf (spendSeq [(constClock 1, .fin 100)] negativeBalanceService) pA = -200 ∧
    balanceOf (spendSeq [(constClock 1, .fin 100)] negativeBalanceService) pA < 0 :=
  ⟨Reachable.add _ Reachable.init, by decide, by decide⟩

/-- C3 (amended): for every payer, after any sequence of `Spend` calls on any
reachable state, the payer's aggregate balance is never less than
`min(its balance at the start of the sequence, 0)` — this needs no hypothesis
on the other payers' balances; in particular a payer whose aggregate balance
is `≥ 0` stays `≥ 0`, so no `Spend` call ever takes any payer's balance from
`≥ 0` to below 0. -/
theorem C3_nonneg (s : TransactionService) (hreach : Reachable s)
    (calls : List ((Nat → Int) × JSNum)) (p : String) :
    min (balanceOf s p) 0 ≤ balanceOf (spendSeq calls s) p ∧
    (0 ≤ balanceOf s p → 0 ≤ balanceOf (spendSeq calls s) p) := by
  have h := spendSeq_min_bound calls s hreach p
  exact ⟨h, fun hp => by omega⟩

/-- Witness for C3 (amended) on the state with one transaction `{A,10,@0}`
and one `Spend(3)` call. -/
theorem C3_nonneg_witness :
    Reachable (initialService.add [⟨pA, 10, 0⟩]) ∧
    (min (balanceOf (initialService.add [⟨pA, 10, 0⟩]) pA) 0
        ≤ balanceOf (spendSeq [(constClock 5, .fin 3)]
            (initialService.add [⟨pA, 10, 0⟩])) pA ∧
      (0 ≤ balanceOf (initialService.add [⟨pA, 10, 0⟩]) pA →
        0 ≤ balanceOf (spendSeq [(constClock 5, .fin 3)]
            (initialService.add [⟨pA, 10, 0⟩])) pA)) :=
  ⟨Reachable.add _ Reachable.init,
   C3_nonneg _ (Reachable.add _ Reachable.init) [(constClock 5, .fin 3)] pA⟩

/-- C4: in every reachable state — after every `add` call, the synthetic
appends issued inside `spendPoints` included, for arbitrary timestamps — the
transaction store is sorted ascending by timestamp. -/
theorem C4_sorted (s : TransactionService) (hreach : Reachable s) :
    SortedByTime s.transactionStore :=
  (reachable_inv hreach).2

/-- Witness for C4 on the state reached by the worked example's append
followed by a `Spend(5000)`. -/
theorem C4_sorted_witness :
    Reachable ((scenarioService.spendPoints scenarioClock (.fin 5000)).2) ∧
    SortedByTime ((scenarioService.spendPoints scenarioClock
        (.fin 5000)).2).transactionStore :=
  ⟨Reachable.spend scenarioClock (.fin 5000) (Reachable.add _ Reachable.init),
   C4_sorted _ (Reachable.spend scenarioClock (.fin 5000)
     (Reachable.add _ Reachable.init))⟩

/-- C5: no operation mutates or removes a stored transaction: an `add` call
turns the store into a permutation of the old store plus exactly the submitted
batch, and a `spendPoints` call turns it into a permutation of the old store
plus only new synthetic debit transactions stamped with the debit clock. -/
theorem C5_frame (s : TransactionService) (ts : List Transaction)
    (clock : Nat → Int) (amt : JSNum) (hreach : Reachable s) :
    (s.add ts).transactionStore.Perm (s.transactionStore ++ ts) ∧
    ∃ ds, ((s.spendPoints clock amt).2).transactionStore.Perm
        (s.transactionStore ++ ds) ∧ ∀ d ∈ ds, ∃ k, d.timestamp = clock k := by
  constructor
  · rw [add_store]
    exact sortByTime_perm _
  · exact spendPoints_frame clock s amt hreach

/-- Witness for C5 on the state with one transaction, one appended batch and
one spend call. -/
theorem C5_frame_witness :
    Reachable (initialService.add [⟨pA, 5, 0⟩]) ∧
    (((initialService.add [⟨pA, 5, 0⟩]).add
        [⟨pB, 7, 1⟩]).transactionStore.Perm
      ((initialService.add [⟨pA, 5, 0⟩]).transactionStore ++ [⟨pB, 7, 1⟩]) ∧
    ∃ ds, (((initialService.add [⟨pA, 5, 0⟩]).spendPoints
        (constClock 9) (.fin 2)).2).transactionStore.Perm
        ((initialService.add [⟨pA, 5, 0⟩]).transactionStore ++ ds) ∧
      ∀ d ∈ ds, ∃ k, d.timestamp = constClock 9 k) :=
  ⟨Reachable.add _ Reachable.init,
   C5_frame _ [⟨pB, 7, 1⟩] (constClock 9) (.fin 2) (Reachable.add _ Reachable.init)⟩

/-- C6 evaluated at the failing input: the batch entry with payer `A`, points
5 and a present but unparseable timestamp (an Invalid Date — every `Date`
object is truthy, so `!transaction.timestamp` misses it) passes validation,
the route reports no error, and the entry is appended — although the claim
(and the code's own error message "Timestamp must be a valid date") requires
the append to fail. (The fail-atomicity half of the claim does hold:
`addTransactionRoute_atomic` above shows a rejected batch leaves the service
untouched.) -/
theorem C6_unparseable_timestamp_accepted :
    badEntry unparseableTimestampEntry = false ∧
    unmarshalTransaction unparseableTimestampEntry
      = .ok ⟨some pA, some (.fin 5), some (none : JSDate)⟩ ∧
    (addTransactionRoute initialService [unparseableTimestampEntry]).2 = none ∧
    (addTransactionRoute initialService
        [unparseableTimestampEntry]).1.transactionStore.length = 1 :=
  ⟨rfl, rfl, rfl, rfl⟩

/-- C7 counterexample: `Spend(+Infinity)` does not fail — `isNaN(Infinity)`
and `Infinity < 0` are both false — refuting "fails iff the amount is not a
finite number ≥ 0". On an empty service it returns an empty result. -/
theorem C7_posInf_accepted :
    (initialService.spendPoints (constClock 0) .posInf).1 = .ok [] := rfl

/-- C7 (amended): `spendPoints` fails with `InvalidAmount` iff the amount is
`NaN` or negative (including `-Infinity`); `+Infinity` is accepted. When it
fails, the service — store and cached projection — is unchanged. -/
theorem C7_guard (clock : Nat → Int) (s : TransactionService) (amt : JSNum) :
    ((∃ e, (s.spendPoints clock amt).1 = .error e) ↔
      (amt = .nan ∨ amt = .negInf ∨ ∃ x, amt = .fin x ∧ x < 0)) ∧
    ((∃ e, (s.spendPoints clock amt).1 = .error e) →
      (s.spendPoints clock amt).2 = s) := by
  by_cases hg : (amt.isNaN || amt.lt0) = true
  · constructor
    · constructor
      · intro _
        cases amt with
        | nan => exact Or.inl rfl
        | negInf => exact Or.inr (Or.inl rfl)
        | posInf => simp [JSNum.isNaN, JSNum.lt0] at hg
        | fin x =>
          refine Or.inr (Or.inr ⟨x, rfl, ?_⟩)
          simpa [JSNum.isNaN, JSNum.lt0] using hg
      · intro _
        rw [spendPoints_guard clock s amt hg]
        exact ⟨.invalidAmount, rfl⟩
    · intro _
      rw [spendPoints_guard clock s amt hg]
  · have hg' : (amt.isNaN || amt.lt0) = false := by simpa using hg
    constructor
    · constructor
      · intro ⟨e, he⟩
        rw [spendPoints_ok clock s amt hg'] at he
        simp at he
      · intro h
        exfalso
        rcases h with rfl | rfl | ⟨x, rfl, hx⟩
        · simp [JSNum.isNaN] at hg'
        · simp [JSNum.lt0] at hg'
        · simp [JSNum.isNaN, JSNum.lt0] at hg'
          omega
    · intro ⟨e, he⟩
      rw [spendPoints_ok clock s amt hg'] at he
      simp at he

/-- Witness for C7 (amended) at the NaN amount on an empty service. -/
theorem C7_guard_witness :
    ((∃ e, (initialService.spendPoints (constClock 0) .nan).1 = .error e) ↔
      (JSNum.nan = .nan ∨ JSNum.nan = .negInf ∨
        ∃ x, JSNum.nan = .fin x ∧ x < 0)) ∧
    ((∃ e, (initialService.spendPoints (constClock 0) .nan).1 = .error e) →
      (initialService.spendPoints (constClock 0) .nan).2 = initialService) :=
  C7_guard (constClock 0) initialService .nan

/-- C8 counterexample: after appending the worked example's five transactions
in one call, `GetProjection` maps DANNON to `1000 + (-200) + 300 = 1100`, not
the claimed 1000. -/
theorem C8_projection_value :
    lookupProj (scenarioService.showPayerPoints) pDannon = some 1100 ∧
    (1100 : Int) ≠ 1000 :=
  ⟨rfl, by decide⟩

/-- C8 (amended, with the pre-spend DANNON value corrected to 1100): after
the batch append the projection is `{DANNON:1100, UNILEVER:200,
MILLER COORS:10000}`; `Spend(5000)` succeeds with per-payer debits
`{DANNON:-100, UNILEVER:-200, MILLER COORS:-4700}` — deducted oldest-first —
summing to exactly `-5000`, and the projection afterwards is
`{DANNON:1000, UNILEVER:0, MILLER COORS:5300}`. -/
theorem C8_scenario :
    scenarioService.showPayerPoints
      = [(pDannon, 1100), (pUnilever, 200), (pMillerCoors, 10000)] ∧
    (scenarioService.spendPoints scenarioClock (.fin 5000)).1
      = .ok [(pDannon, -100), (pUnilever, -200), (pMillerCoors, -4700)] ∧
    sumValues [((pDannon : String), (-100 : Int)), (pUnilever, -200),
      (pMillerCoors, -4700)] = -5000 ∧
    (scenarioService.spendPoints scenarioClock (.fin 5000)).2.showPayerPoints
      = [(pDannon, 1000), (pUnilever, 0), (pMillerCoors, 5300)] :=
  ⟨rfl, rfl, by decide, rfl⟩

/-- C9 counterexample: on the reachable state with store
`[{A,-2,@0},{B,5,@1},{A,9,@2}]` and a debit clock (100) later than every
stored timestamp, `Spend(1)` returns `[(A, 2), (B, -3)]`: the entry for `A`
is positive (its negative-points transaction was processed as a take of `-2`
and its later credit was never reached), refuting "every returned points
value is ≤ 0" and "entries only for payers that had points deducted". -/
theorem C9_result_counterexample :
    Reachable negativeDebitService ∧
    (negativeDebitService.spendPoints (constClock 100) (.fin 1)).1
      = .ok [(pA, 2), (pB, -3)] ∧
    ¬ ((2 : Int) ≤ 0) :=
  ⟨Reachable.add _ Reachable.init, rfl, by decide⟩

/-- C9 (amended): for a guard-passing `Spend` on a reachable state with no
stored timestamp after the debit clock, the returned list is the projection
of the suffix of synthetic debits appended by the call (the
`projectionFrom(index captured before the loop)`): it has exactly one entry
per payer that received a synthetic debit during the call — no other payers —
and each entry's value is the net points of that payer's synthetic debits,
equal to the change of the payer's aggregate balance over the call. (The
value is not always ≤ 0: zero- and negative-points transactions can produce
zero or positive entries.) -/
theorem C9_spend_result (clock : Nat → Int) (s : TransactionService) (amt : JSNum)
    (hreach : Reachable s)
    (hfut : ∀ t ∈ s.transactionStore, ∀ k, t.timestamp ≤ clock k)
    (hguard : (amt.isNaN || amt.lt0) = false) :
    ∃ ds,
      (s.spendPoints clock amt).2.transactionStore = s.transactionStore ++ ds ∧
      (∀ d ∈ ds, ∃ k, d.timestamp = clock k) ∧
      (s.spendPoints clock amt).1 = .ok (projectOver ds) ∧
      ((projectOver ds).map Prod.fst).Nodup ∧
      (∀ p, p ∈ (projectOver ds).map Prod.fst ↔ p ∈ ds.map (fun d => d.payer)) ∧
      (∀ p v, (p, v) ∈ projectOver ds →
        v = sumFor ds p ∧
        v = balanceOf (s.spendPoints clock amt).2 p - balanceOf s p) := by
  obtain ⟨ds, hstore, hclk, hok, _⟩ := spendPoints_main clock s amt hreach hfut hguard
  refine ⟨ds, hstore, hclk, hok, nodupKeys_projectOver ds, ?_, ?_⟩
  · intro p
    exact ⟨keys_projectOver_sub ds p, keys_projectOver_mem ds p⟩
  · intro p v hmem
    have hv := mem_projectOver_eq_sumFor ds p v hmem
    refine ⟨hv, ?_⟩
    unfold balanceOf
    rw [hstore, sumFor_append]
    omega

/-- Witness for C9 (amended) on the state with one transaction `{B,7,@0}`,
debit clock 50 and amount 3. -/
theorem C9_spend_result_witness :
    (∀ t ∈ (initialService.add [⟨pB, 7, 0⟩]).transactionStore,
      ∀ k : Nat, t.timestamp ≤ constClock 50 k) ∧
    (((JSNum.fin 3).isNaN || (JSNum.fin 3).lt0) = false) ∧
    ∃ ds,
      ((initialService.add [⟨pB, 7, 0⟩]).spendPoints (constClock 50)
          (.fin 3)).2.transactionStore
        = (initialService.add [⟨pB, 7, 0⟩]).transactionStore ++ ds ∧
      (∀ d ∈ ds, ∃ k, d.timestamp = constClock 50 k) ∧
      ((initialService.add [⟨pB, 7, 0⟩]).spendPoints (constClock 50)
          (.fin 3)).1 = .ok (projectOver ds) ∧
      ((projectOver ds).map Prod.fst).Nodup ∧
      (∀ p, p ∈ (projectOver ds).map Prod.fst ↔ p ∈ ds.map (fun d => d.payer)) ∧
      (∀ p v, (p, v) ∈ projectOver ds →
        v = sumFor ds p ∧
        v = balanceOf ((initialService.add [⟨pB, 7, 0⟩]).spendPoints
              (constClock 50) (.fin 3)).2 p
            - balanceOf (initialService.add [⟨pB, 7, 0⟩]) p) :=
  by
  have hfut : ∀ t ∈ (initialService.add [⟨pB, 7, 0⟩]).transactionStore,
      ∀ k : Nat, t.timestamp ≤ constClock 50 k := by
    intro t ht k
    have hstore : (initialService.add [⟨pB, 7, 0⟩]).transactionStore
        = [⟨pB, 7, 0⟩] := rfl
    rw [hstore] at ht
    have h1 := List.mem_singleton.mp ht
    subst h1
    show (0 : Int) ≤ 50
    decide
  exact ⟨hfut, by decide,
    C9_spend_result (constClock 50) _ (.fin 3) (Reachable.add _ Reachable.init)
      hfut (by decide)⟩

/-- C10: on a store sorted ascending by timestamp, `findIndexFromTimestamp`
returns, for a timestamp present in the store, an index holding a transaction
with exactly that timestamp, and `-1` for a timestamp not present. -/
theorem C10_binary_search (l : List Transaction) (tms : Int)
    (hsort : SortedByTime l) :
    ((∃ tx ∈ l, tx.timestamp = tms) →
      ∃ (i : Nat) (h : i < l.length), findIndexFromTimestamp l tms = (i : Int) ∧
        (l.get ⟨i, h⟩).timestamp = tms) ∧
    ((∀ tx ∈ l, tx.timestamp ≠ tms) → findIndexFromTimestamp l tms = -1) := by
  constructor
  · intro ⟨tx, htx, hts⟩
    obtain ⟨j, hget⟩ := List.mem_iff_get.mp htx
    have hj := j.2
    have hne := bsearchLoop_complete l tms hsort (l.length + 1) 0
      ((l.length : Int) - 1) (by omega) (by omega) (by omega)
      ⟨j.1, by omega, by omega, j.2, by
        show (l.get j).timestamp = tms
        rw [hget]
        exact hts⟩
    rcases bsearchLoop_sound l tms (l.length + 1) 0 ((l.length : Int) - 1)
        (by omega) with h | ⟨i, hb, heq, hts2⟩
    · exact absurd h hne
    · exact ⟨i, hb, by rw [findIndexFromTimestamp_def]; exact heq, hts2⟩
  · intro habs
    rw [findIndexFromTimestamp_def]
    rcases bsearchLoop_sound l tms (l.length + 1) 0 ((l.length : Int) - 1)
        (by omega) with h | ⟨i, hb, heq, hts⟩
    · exact h
    · exact absurd hts (habs _ (List.get_mem l _ hb))

/-- Witness for C10 on a sorted four-element store, searching the present
timestamp 9. -/
theorem C10_binary_search_witness :
    SortedByTime bsearchWitnessList ∧
    (((∃ tx ∈ bsearchWitnessList, tx.timestamp = 9) →
      ∃ (i : Nat) (h : i < bsearchWitnessList.length),
        findIndexFromTimestamp bsearchWitnessList 9 = (i : Int) ∧
        (bsearchWitnessList.get ⟨i, h⟩).timestamp = 9) ∧
    ((∀ tx ∈ bsearchWitnessList, tx.timestamp ≠ 9) →
      findIndexFromTimestamp bsearchWitnessList 9 = -1)) :=
  by
  have hsort : SortedByTime bsearchWitnessList := by
    unfold SortedByTime
    decide
  exact ⟨hsort, C10_binary_search bsearchWitnessList 9 hsort⟩
